import Mathlib

/-!
# Verification of the B+tree engine (`src/storage/index/b_plus_tree.cpp`)

Shallow embedding of the B+tree index implementation.  The engine is
instantiated with integer keys (`Int`) and the natural-order comparator
(`cmp k a < 0 ↔ k < a`, `cmp k a = 0 ↔ k = a`), matching the seed scenarios of
the specification.  Values are modelled as `Nat` (the `RID` payload is opaque).

Page ids are `Int` with the sentinel `INVALID_PAGE_ID = -1`.  The buffer pool
is modelled as a map `Int → Option Page` together with an allocation counter
`nextFresh`; `new_page()` hands out `nextFresh` and bumps the counter.  Per the
external page-cache contract, a fresh frame is zero-initialised, hence every
key/value array is modelled as a total function `Int → _` that is `0`
everywhere until written.  Out-of-range array accesses performed by the C++
code (e.g. `KeyAt(-1)`, `KeyAt(size)`) therefore read back whatever the model
frame holds at that slot (initially `0`, or a value previously written there),
which mirrors the fact that the C++ reads whatever bytes sit at that address.

While-loops are modelled with explicit fuel so that every definition is
executable; the fuel is always chosen large enough that it is never exhausted
on the loops the C++ code runs (binary search halves `r - l`; descent visits
at most one page per allocated page on any well-formed tree).

Two modelling notes.  `Insert`'s context holds the descent-time content of
every ancestor (the C++ holds exclusive guards over the frames themselves);
the two views agree because the pages of a descent path are distinct on any
well-formed tree and no page is written before the cascade reaches it.
C++ `int` division truncates toward zero while Lean's `Int` division is
floor division; the divisions of the source (`(max_size + 2) / 2`) only ever
see nonnegative operands, where the two agree.
-/

namespace BPT

/-- `INVALID_PAGE_ID` sentinel of the source. -/
def INVALID_PAGE_ID : Int := -1

/-- Pointwise update of an `Int`-valued array modelled as a total function. -/
def updI (f : Int → Int) (i v : Int) : Int → Int :=
  fun j => if j = i then v else f j

/-- Pointwise update of a `Nat`-valued array modelled as a total function. -/
def updN (f : Int → Nat) (i : Int) (v : Nat) : Int → Nat :=
  fun j => if j = i then v else f j

/-- Modelled from the spec (§6 page layouts): leaf page
`{ tag = LEAF, size, max_size, next_page_id, keys, values }`.
The key/value arrays are total functions; slots outside `[0, size)` hold
whatever was last written there (`0` on a fresh zero-initialised frame). -/
structure LeafPage where
  size : Int
  maxSize : Int
  keyArr : Int → Int
  valArr : Int → Nat
  nextPageId : Int

/-- Modelled from the spec (§6 page layouts): internal page
`{ tag = INTERNAL, size, max_size, keys, children }` with `keys[0]` unused.
`size` counts children (values), not keys. -/
structure InternalPage where
  size : Int
  maxSize : Int
  keyArr : Int → Int
  valArr : Int → Int

/-- A typed page frame (`BPlusTreePage` with its type tag resolved). -/
inductive Page where
  | leaf : LeafPage → Page
  | internal : InternalPage → Page

/-- `KeyAt` accessor of a leaf page. -/
def LeafPage.keyAt (l : LeafPage) (i : Int) : Int := l.keyArr i

/-- `ValueAt` accessor of a leaf page. -/
def LeafPage.valAt (l : LeafPage) (i : Int) : Nat := l.valArr i

/-- `SetKeyAt` of a leaf page. -/
def LeafPage.setKeyAt (l : LeafPage) (i v : Int) : LeafPage :=
  { l with keyArr := updI l.keyArr i v }

/-- `SetValueAt` of a leaf page. -/
def LeafPage.setValAt (l : LeafPage) (i : Int) (v : Nat) : LeafPage :=
  { l with valArr := updN l.valArr i v }

/-- `LeafPage::Init(max_size)` on a zero-initialised frame
(modelled from the spec: sets size 0, the capacity, and `next := INVALID`). -/
def LeafPage.init (maxSize : Int) : LeafPage :=
  { size := 0, maxSize := maxSize, keyArr := fun _ => 0, valArr := fun _ => 0,
    nextPageId := INVALID_PAGE_ID }

/-- `KeyAt` accessor of an internal page. -/
def InternalPage.keyAt (p : InternalPage) (i : Int) : Int := p.keyArr i

/-- `ValueAt` accessor of an internal page (a child page id). -/
def InternalPage.valAt (p : InternalPage) (i : Int) : Int := p.valArr i

/-- `SetKeyAt` of an internal page. -/
def InternalPage.setKeyAt (p : InternalPage) (i v : Int) : InternalPage :=
  { p with keyArr := updI p.keyArr i v }

/-- `SetValueAt` of an internal page. -/
def InternalPage.setValAt (p : InternalPage) (i v : Int) : InternalPage :=
  { p with valArr := updI p.valArr i v }

/-- `InternalPage::Init(max_size)` on a zero-initialised frame
(modelled from the spec: sets size 0 and the capacity). -/
def InternalPage.init (maxSize : Int) : InternalPage :=
  { size := 0, maxSize := maxSize, keyArr := fun _ => 0, valArr := fun _ => 0 }

/-- The engine state: the header page's `root_page_id_`, the page frames held
by the buffer pool, the allocation counter of `NewPage`, and the two
capacities `leaf_max_size_` / `internal_max_size_` of the `BPlusTree` object. -/
structure BPTState where
  rootPageId : Int
  pages : Int → Option Page
  nextFresh : Int
  leafMaxSize : Int
  internalMaxSize : Int

/-- Writing a typed page into a frame of the buffer pool. -/
def updPages (pages : Int → Option Page) (i : Int) (pg : Page) : Int → Option Page :=
  fun j => if j = i then some pg else pages j

/-- The state after the `BPlusTree` constructor ran: the header is initialised
with `root_page_id_ := INVALID_PAGE_ID` (lines 7–18) and no tree page exists. -/
def BPTState.empty (leafMax internalMax : Int) : BPTState :=
  { rootPageId := INVALID_PAGE_ID, pages := fun _ => none, nextFresh := 0,
    leafMaxSize := leafMax, internalMaxSize := internalMax }

/-! ## Binary searches (lines 35–105) -/

/-- Loop of `KeyBinarySearch` on a leaf page (lines 42–53): exact-match
bisection returning the hit slot.  The fuel only bounds the iteration count;
the loop shrinks `r - l` every step, so fuel `size + 2` is never exhausted. -/
def kbsLeafLoop (pg : LeafPage) (key : Int) : Nat → Int → Int → Int
  | 0, _, _ => -1
  | fuel+1, l, r =>
    if l ≤ r then
      let mid := (l + r) / 2
      if key = pg.keyAt mid then mid
      else if key < pg.keyAt mid then kbsLeafLoop pg key fuel l (mid - 1)
      else kbsLeafLoop pg key fuel (mid + 1) r
    else -1

/-- `KeyBinarySearch` on a leaf page: slot of the key, or `-1` if absent. -/
def keyBinarySearchLeaf (pg : LeafPage) (key : Int) : Int :=
  kbsLeafLoop pg key (pg.size + 2).toNat 0 (pg.size - 1)

/-- Loop of `KeyBinarySearch` on an internal page (lines 63–73). -/
def kbsInternalLoop (pg : InternalPage) (key : Int) : Nat → Int → Int → Int
  | 0, _, _ => -1
  | fuel+1, l, r =>
    if l ≤ r then
      let mid := (l + r) / 2
      if pg.keyAt mid ≤ key then
        if mid + 1 ≥ pg.size ∨ pg.keyAt (mid + 1) > key then mid
        else kbsInternalLoop pg key fuel (mid + 1) r
      else kbsInternalLoop pg key fuel l (mid - 1)
    else -1

/-- `KeyBinarySearch` on an internal page (lines 54–74): routing slot of the
child whose subtree covers `key`; `0` when `key < keys[1]`; `-1` on fallout. -/
def keyBinarySearchInternal (pg : InternalPage) (key : Int) : Int :=
  if key < pg.keyAt 1 then 0
  else kbsInternalLoop pg key (pg.size + 2).toNat 1 (pg.size - 1)

/-- Loop of `IndexBinarySearchLeaf` (lines 92–102). -/
def ibslLoop (pg : LeafPage) (key : Int) : Nat → Int → Int → Int
  | 0, _, _ => -1
  | fuel+1, l, r =>
    if l ≤ r then
      let mid := (l + r) / 2
      if pg.keyAt mid < key then
        if mid + 1 ≥ pg.size ∨ pg.keyAt (mid + 1) ≥ key then mid + 1
        else ibslLoop pg key fuel (mid + 1) r
      else ibslLoop pg key fuel l (mid - 1)
    else -1

/-- `IndexBinarySearchLeaf` (lines 83–105): position at which `key` should be
inserted into the leaf.  Note: when `key` compares equal to the leaf's
smallest key the early `return 0` does not fire (it requires a strict `<`) and
the loop falls through to `-1`. -/
def indexBinarySearchLeaf (pg : LeafPage) (key : Int) : Int :=
  if key < pg.keyAt 0 then 0
  else ibslLoop pg key (pg.size + 2).toNat 0 (pg.size - 1)

/-! ## Point query `GetValue` (lines 116–153) -/

/-- Descent loop of `GetValue`: route through internal pages, then run the
leaf point search and copy the value out. -/
def getValueLoop (s : BPTState) (key : Int) : Nat → Int → Option Nat
  | 0, _ => none
  | fuel+1, pid =>
    match s.pages pid with
    | some (Page.internal ip) =>
      let index := keyBinarySearchInternal ip key
      if index = -1 then none
      else getValueLoop s key fuel (ip.valAt index)
    | some (Page.leaf lf) =>
      let index := keyBinarySearchLeaf lf key
      if index = -1 then none
      else some (lf.valAt index)
    | none => none

/-- `GetValue(key)`: `some v` models `true` with `v` pushed into `result`,
`none` models `false`. -/
def getValue (s : BPTState) (key : Int) : Option Nat :=
  if s.rootPageId = INVALID_PAGE_ID then none
  else getValueLoop s key (s.nextFresh.toNat + 1) s.rootPageId

/-! ## Insertion (lines 166–398) -/

/-- `[lo, lo+1, …, hi-1]`: index list of an ascending C++ loop
`for (int i = lo; i < hi; i++)`. -/
def upRange (lo hi : Int) : List Int :=
  (List.range (hi - lo).toNat).map (fun (j : Nat) => lo + (j : Int))

/-- `[hi, hi-1, …, lo+1]`: index list of a descending C++ loop
`for (int i = hi; i > lo; i--)`. -/
def downRange (hi lo : Int) : List Int :=
  (List.range (hi - lo).toNat).map (fun (j : Nat) => hi - (j : Int))

/-- A C++ copy loop `dst[i] := src[i + off]` (key and value) over the index
list `L`, on leaf pages. -/
def leafCopyLoop (src : LeafPage) (off : Int) (L : List Int) (dst : LeafPage) : LeafPage :=
  L.foldl (fun n i => (n.setKeyAt i (src.keyAt (i + off))).setValAt i (src.valAt (i + off))) dst

/-- A C++ shift loop `a[i] := a[i - 1]` (key and value) over the index list
`L` (run with a descending `downRange`, so every read sees the pre-loop
value), on leaf pages. -/
def leafShiftLoop (L : List Int) (l0 : LeafPage) : LeafPage :=
  L.foldl (fun l i => (l.setKeyAt i (l.keyAt (i - 1))).setValAt i (l.valAt (i - 1))) l0

/-- A C++ copy loop `dst[i] := src[i + off]` on internal pages; the key write
is guarded by `i > 0` when `guarded = true` (slot 0 of an internal page
carries no key, lines 334–337). -/
def internalCopyLoop (src : InternalPage) (off : Int) (guarded : Bool)
    (L : List Int) (dst : InternalPage) : InternalPage :=
  L.foldl (fun n i =>
    ((if guarded = false ∨ 0 < i then n.setKeyAt i (src.keyAt (i + off)) else n)).setValAt i
      (src.valAt (i + off))) dst

/-- A C++ shift loop `a[i] := a[i - 1]` (key and value) on internal pages. -/
def internalShiftLoop (L : List Int) (p0 : InternalPage) : InternalPage :=
  L.foldl (fun m i => (m.setKeyAt i (m.keyAt (i - 1))).setValAt i (m.valAt (i - 1))) p0

/-- Safe-leaf fast path (lines 228–236): shift `[p, size)` right by one,
place `(k,v)` at `p`, bump the size. -/
def leafInsertAt (lf : LeafPage) (p k : Int) (v : Nat) : LeafPage :=
  let size := lf.size
  let lf1 := leafShiftLoop (downRange size p) lf
  let lf2 := (lf1.setKeyAt p k).setValAt p v
  { lf2 with size := size + 1 }

/-- Leaf split (lines 244–281).  `lf` is the full leaf, `newLeafId` the page
id returned by `NewPage`, `p` the insert position, `(k, v)` the new entry.
Returns the original leaf and the new leaf after redistribution. -/
def splitLeaf (leafMaxCfg : Int) (lf : LeafPage) (newLeafId p k : Int) (v : Nat) :
    LeafPage × LeafPage :=
  let first := (lf.maxSize + 2) / 2
  let second := lf.maxSize + 1 - first
  let nl1 := { LeafPage.init leafMaxCfg with size := second, nextPageId := lf.nextPageId }
  let lf1 := { lf with size := first, nextPageId := newLeafId }
  if p < first then
    let nl2 := leafCopyLoop lf1 (first - 1) (upRange 0 second) nl1
    let lf2 := leafShiftLoop (downRange (first - 1) p) lf1
    ((lf2.setKeyAt p k).setValAt p v, nl2)
  else
    let nl2 := leafCopyLoop lf1 first (upRange 0 (p - first)) nl1
    let nl3 := (nl2.setKeyAt (p - first) k).setValAt (p - first) v
    let nl4 := leafCopyLoop lf1 (first - 1) (upRange (p - first + 1) second) nl3
    (lf1, nl4)

/-- Non-full internal parent (lines 301–314): shift `[p, size)` right by one
and write `(insert_key, second_split_page_id)` at `p`. -/
def internalInsertAt (ip : InternalPage) (p ik sc : Int) : InternalPage :=
  let size := ip.size
  let ip1 := internalShiftLoop (downRange size p) ip
  let ip2 := (ip1.setKeyAt p ik).setValAt p sc
  { ip2 with size := size + 1 }

/-- Full internal parent split (lines 319–366).  `ip` is the full parent, `p`
its insert position (`q + 1`), `(ik, sc)` the pair cascading up.  Returns the
original node, the new node, and the key promoted upward (`tmp_key`). -/
def splitInternal (internalMaxCfg : Int) (ip : InternalPage) (p ik sc : Int) :
    InternalPage × InternalPage × Int :=
  let first := (ip.maxSize + 2) / 2
  let second := ip.maxSize + 1 - first
  let n1 := { InternalPage.init internalMaxCfg with size := second }
  let ip1 := { ip with size := first }
  if p < first then
    let tmp := ip1.keyAt (first - 1)
    let n2 := internalCopyLoop ip1 (first - 1) true (upRange 0 second) n1
    let ip2 := internalShiftLoop (downRange (first - 1) p) ip1
    ((ip2.setKeyAt p ik).setValAt p sc, n2, tmp)
  else
    let n2 := internalCopyLoop ip1 first true (upRange 0 (p - first)) n1
    let tmp := ip1.keyAt first
    let n3 := if first < p then n2.setKeyAt (p - first) ik else n2
    let n4 := n3.setValAt (p - first) sc
    let n5 := internalCopyLoop ip1 (first - 1) false (upRange (p - first + 1) second) n4
    (ip1, n5, tmp)

/-- Pessimistic descent of `Insert` (lines 194–210): route to the target leaf
collecting, for every internal page on the path, its id, its content and the
routing slot taken (`ctx.write_set_` paired with `ctx.indexes_`).  `none`
models the `return false` on an impossible routing result, and is also
returned on an unallocated frame or on fuel exhaustion (neither is reachable
on a well-formed tree). -/
def descendInsert (s : BPTState) (key : Int) :
    Nat → Int → List (Int × InternalPage × Int) →
    Option (List (Int × InternalPage × Int) × Int × LeafPage)
  | 0, _, _ => none
  | fuel+1, pid, path =>
    match s.pages pid with
    | some (Page.leaf lf) => some (path, pid, lf)
    | some (Page.internal ip) =>
      let index := keyBinarySearchInternal ip key
      if index = -1 then none
      else descendInsert s key fuel (ip.valAt index) (path ++ [(pid, ip, index)])
    | none => none

/-- The split cascade over the ancestor stack (lines 296–375).  The list is
the descent path deepest-ancestor first (the code pops `ctx.write_set_` from
the back).  Threads the buffer pool, the allocation counter, and the
`(insert_key, second_split_page_id)` pair; returns additionally the
`new_root_flag`: `true` iff every ancestor (root included) was split. -/
def insertCascade (internalMaxCfg : Int) :
    List (Int × InternalPage × Int) → (Int → Option Page) → Int → Int → Int →
    (Int → Option Page) × Int × Bool × Int × Int
  | [], pages, nextFresh, ik, sc => (pages, nextFresh, true, ik, sc)
  | (pid, ip, idx) :: rest, pages, nextFresh, ik, sc =>
    let p := idx + 1
    if ip.size < ip.maxSize then
      (updPages pages pid (Page.internal (internalInsertAt ip p ik sc)), nextFresh, false, ik, sc)
    else
      let newId := nextFresh
      let r := splitInternal internalMaxCfg ip p ik sc
      insertCascade internalMaxCfg rest
        (updPages (updPages pages pid (Page.internal r.1)) newId (Page.internal r.2.1))
        (nextFresh + 1) r.2.2 newId

/-- The full-leaf path of `Insert` (lines 241–398): split the leaf, run the
cascade into the ancestors, and create a new root when the cascade consumed
the whole path (`new_root_flag` still set).  `path` is the stack of internal
ancestors with their routing slots, `leafId`/`lf` the full target leaf and
`insertIndex` the position at which `(key, v)` belongs. -/
def insertSplitPath (s : BPTState) (path : List (Int × InternalPage × Int))
    (leafId : Int) (lf : LeafPage) (insertIndex key : Int) (v : Nat) : Bool × BPTState :=
  -- (2.4) leaf split
  let newLeafId := s.nextFresh
  let sp := splitLeaf s.leafMaxSize lf newLeafId insertIndex key v
  -- (2.5) cascade into the ancestors
  let insertKey := sp.2.keyAt 0
  let pages1 := updPages (updPages s.pages leafId (Page.leaf sp.1))
    newLeafId (Page.leaf sp.2)
  let firstSplitPageId := s.rootPageId
  let c := insertCascade s.internalMaxSize path.reverse pages1 (s.nextFresh + 1)
    insertKey newLeafId
  if c.2.2.1 then
    -- new root R (lines 378–394)
    let newRootId := c.2.1
    let nr0 : InternalPage := { InternalPage.init s.internalMaxSize with size := 2 }
    let nr := ((nr0.setKeyAt 1 c.2.2.2.1).setValAt 0 firstSplitPageId).setValAt 1 c.2.2.2.2
    (true, { s with
              rootPageId := newRootId,
              pages := updPages c.1 newRootId (Page.internal nr),
              nextFresh := newRootId + 1 })
  else
    (true, { s with pages := c.1, nextFresh := c.2.1 })

/-- `Insert(key, value)` (lines 166–398).  Returns the boolean result and the
state after the call. -/
def insert (s : BPTState) (key : Int) (v : Nat) : Bool × BPTState :=
  if s.rootPageId = INVALID_PAGE_ID then
    -- (1) empty tree (lines 175–190): new leaf root with the single pair
    let rootPageId := s.nextFresh
    let rp0 := ((LeafPage.init s.leafMaxSize).setKeyAt 0 key).setValAt 0 v
    let rp := { rp0 with size := 1 }
    (true, { s with
              rootPageId := rootPageId,
              pages := updPages s.pages rootPageId (Page.leaf rp),
              nextFresh := s.nextFresh + 1 })
  else
    match descendInsert s key (s.nextFresh.toNat + 1) s.rootPageId [] with
    | none => (false, s)
    | some (path, leafId, lf) =>
      -- (2.2) find the insert position; equal key means duplicate
      let insertIndex := indexBinarySearchLeaf lf key
      if lf.keyAt insertIndex = key then (false, s)
      else if lf.size < lf.maxSize then
        -- (2.3) safe leaf: insert in place
        (true, { s with
                  pages := updPages s.pages leafId
                    (Page.leaf (leafInsertAt lf insertIndex key v)) })
      else
        insertSplitPath s path leafId lf insertIndex key v

/-- `Remove(key)` (lines 411–415): the body only declares a context and
discards it. -/
def remove (s : BPTState) (_key : Int) : BPTState := s

/-! ## Observation helpers -/

/-- The valid key prefix `keys[0..size)` of a leaf, as a list. -/
def LeafPage.keysList (l : LeafPage) : List Int :=
  (List.range l.size.toNat).map (fun (j : Nat) => l.keyAt (j : Int))

/-- The valid value prefix `values[0..size)` of a leaf, as a list. -/
def LeafPage.valsList (l : LeafPage) : List Nat :=
  (List.range l.size.toNat).map (fun (j : Nat) => l.valAt (j : Int))

/-- The children `children[0..size)` of an internal page, as a list. -/
def InternalPage.childList (p : InternalPage) : List Int :=
  (List.range p.size.toNat).map (fun (j : Nat) => p.valAt (j : Int))

/-- All keys stored in the subtree rooted at a page (fuelled traversal). -/
def subtreeKeys (s : BPTState) : Nat → Int → List Int
  | 0, _ => []
  | fuel+1, pid =>
    match s.pages pid with
    | some (Page.leaf lf) => lf.keysList
    | some (Page.internal ip) => (ip.childList.map (subtreeKeys s fuel)).flatten
    | none => []

/-- Run a sequence of inserts, discarding the boolean results. -/
def applyInserts (s : BPTState) : List (Int × Nat) → BPTState
  | [] => s
  | (k, v) :: rest => applyInserts (insert s k v).2 rest

/-- The leaf page stored at a frame (a zero leaf if the frame holds no leaf). -/
def leafAt (s : BPTState) (pid : Int) : LeafPage :=
  match s.pages pid with
  | some (Page.leaf lf) => lf
  | _ => LeafPage.init 0

/-- The internal page stored at a frame (a zero page if the frame holds no
internal page). -/
def internalAt (s : BPTState) (pid : Int) : InternalPage :=
  match s.pages pid with
  | some (Page.internal ip) => ip
  | _ => InternalPage.init 0

/-- Whether a frame holds a leaf page. -/
def isLeafFrame (s : BPTState) (pid : Int) : Bool :=
  match s.pages pid with
  | some (Page.leaf _) => true
  | _ => false

/-- Whether a frame holds an internal page. -/
def isInternalFrame (s : BPTState) (pid : Int) : Bool :=
  match s.pages pid with
  | some (Page.internal _) => true
  | _ => false

/-! ## Concrete traces used by several claims -/

/-- Capacities `M_l = 2`, `M_i = 3`, keys 10,20,…,60 inserted in order.
Shape: root (id 2 → after insert 50 it has children `[0, 1, 3]` and keys
`[_, 30, 50]`), leaves `0:[10,20] → 1:[30,40] → 3:[50,60]`. -/
def bugBase : BPTState :=
  applyInserts (BPTState.empty 2 3) [(10, 1), (20, 2), (30, 3), (40, 4), (50, 5), (60, 6)]

/-- `bugBase` after additionally inserting key 45: the target leaf `[30,40]`
splits, and the cascade splits the full root at insert position
`q + 1 = 2 = first_size`, the position at which the source promotes
`KeyAt(first_size)` (= 50) instead of the cascading key 45. -/
def bugFinal : BPTState := (insert bugBase 45 7).2

/-- A single-leaf tree holding only key 5 (capacities 4/4). -/
def dupBase : BPTState := (insert (BPTState.empty 4 4) 5 1).2

/-- A single-leaf tree holding keys 3 and 5 (capacities 4/4). -/
def dupBase2 : BPTState := applyInserts (BPTState.empty 4 4) [(3, 1), (5, 2)]

/-- Scenario S2 of the spec: capacities 4/4, keys [10,20,30,40,25]. -/
def s2Tree : BPTState :=
  applyInserts (BPTState.empty 4 4) [(10, 1), (20, 2), (30, 3), (40, 4), (25, 5)]

/-- The logical sequence of `(child, key-before-child)` pairs obtained by
inserting the pair `(sc, ik)` at position `p` into the pairs of an internal
page (the "logical sequence" of spec §4.1.3 step 6; the pair at index 0
carries the structurally unused `keys[0]`). -/
def logicalPairAt (ip : InternalPage) (p ik sc : Int) (j : Int) : Int × Int :=
  if j < p then (ip.valAt j, ip.keyAt j)
  else if j = p then (sc, ik)
  else (ip.valAt (j - 1), ip.keyAt (j - 1))

/-- Key `j` of the logical sequence `keys[0..p) ++ [k] ++ keys[p..size)`
obtained by inserting `k` at position `p` into a leaf's keys (spec §4.1.3
step 5). -/
def insSeqKeyAt (lf : LeafPage) (p k : Int) (j : Int) : Int :=
  if j < p then lf.keyAt j else if j = p then k else lf.keyAt (j - 1)

/-- Value `j` of the logical sequence obtained by inserting `v` at position
`p` into a leaf's values. -/
def insSeqValAt (lf : LeafPage) (p : Int) (v : Nat) (j : Int) : Nat :=
  if j < p then lf.valAt j else if j = p then v else lf.valAt (j - 1)

/-- A concrete full internal page of capacity `M_i = 3`: children
`[100, 200, 300]`, keys `[_, 20, 30]`. -/
def c4ip : InternalPage :=
  { size := 3, maxSize := 3,
    keyArr := updI (updI (fun _ => 0) 1 20) 2 30,
    valArr := updI (updI (updI (fun _ => 0) 0 100) 1 200) 2 300 }

/-- A concrete full leaf of capacity `M_l = 4`: keys `[10, 20, 30, 40]`,
values `[1, 2, 3, 4]`, `next_page_id = 9`. -/
def c5lf : LeafPage :=
  { size := 4, maxSize := 4,
    keyArr := updI (updI (updI (updI (fun _ => 0) 0 10) 1 20) 2 30) 3 40,
    valArr := updN (updN (updN (updN (fun _ => 0) 0 1) 1 2) 2 3) 3 4,
    nextPageId := 9 }

end BPT

namespace BPT

/-! ## Page accessor simp lemmas -/

@[simp]
theorem LeafPage.keyAt_setKeyAt (l : LeafPage) (i v j : Int) :
    (l.setKeyAt i v).keyAt j = if j = i then v else l.keyAt j := rfl

@[simp]
theorem LeafPage.keyAt_setValAt (l : LeafPage) (i : Int) (v : Nat) (j : Int) :
    (l.setValAt i v).keyAt j = l.keyAt j := rfl

@[simp]
theorem LeafPage.valAt_setValAt (l : LeafPage) (i : Int) (v : Nat) (j : Int) :
    (l.setValAt i v).valAt j = if j = i then v else l.valAt j := rfl

@[simp]
theorem LeafPage.valAt_setKeyAt (l : LeafPage) (i v : Int) (j : Int) :
    (l.setKeyAt i v).valAt j = l.valAt j := rfl

@[simp]
theorem LeafPage.size_setKeyAt (l : LeafPage) (i v : Int) : (l.setKeyAt i v).size = l.size := rfl

@[simp]
theorem LeafPage.size_setValAt (l : LeafPage) (i : Int) (v : Nat) :
    (l.setValAt i v).size = l.size := rfl

@[simp]
theorem LeafPage.maxSize_setKeyAt (l : LeafPage) (i v : Int) :
    (l.setKeyAt i v).maxSize = l.maxSize := rfl

@[simp]
theorem LeafPage.maxSize_setValAt (l : LeafPage) (i : Int) (v : Nat) :
    (l.setValAt i v).maxSize = l.maxSize := rfl

@[simp]
theorem LeafPage.nextPageId_setKeyAt (l : LeafPage) (i v : Int) :
    (l.setKeyAt i v).nextPageId = l.nextPageId := rfl

@[simp]
theorem LeafPage.nextPageId_setValAt (l : LeafPage) (i : Int) (v : Nat) :
    (l.setValAt i v).nextPageId = l.nextPageId := rfl

@[simp]
theorem InternalPage.keyAt_setKeyAt_int (n : InternalPage) (i v j : Int) :
    (n.setKeyAt i v).keyAt j = if j = i then v else n.keyAt j := rfl

@[simp]
theorem InternalPage.keyAt_setValAt_int (n : InternalPage) (i v j : Int) :
    (n.setValAt i v).keyAt j = n.keyAt j := rfl

@[simp]
theorem InternalPage.valAt_setValAt_int (n : InternalPage) (i v j : Int) :
    (n.setValAt i v).valAt j = if j = i then v else n.valAt j := rfl

@[simp]
theorem InternalPage.valAt_setKeyAt_int (n : InternalPage) (i v j : Int) :
    (n.setKeyAt i v).valAt j = n.valAt j := rfl

@[simp]
theorem InternalPage.size_setKeyAt_int (n : InternalPage) (i v : Int) :
    (n.setKeyAt i v).size = n.size := rfl

@[simp]
theorem InternalPage.size_setValAt_int (n : InternalPage) (i v : Int) :
    (n.setValAt i v).size = n.size := rfl

@[simp]
theorem InternalPage.maxSize_setKeyAt_int (n : InternalPage) (i v : Int) :
    (n.setKeyAt i v).maxSize = n.maxSize := rfl

@[simp]
theorem InternalPage.maxSize_setValAt_int (n : InternalPage) (i v : Int) :
    (n.setValAt i v).maxSize = n.maxSize := rfl

@[simp]
theorem LeafPage.keyAt_mk_arr (l : LeafPage) (sz ms : Int) (g : Int → Nat) (nx j : Int) :
    (LeafPage.mk sz ms l.keyArr g nx).keyAt j = l.keyAt j := rfl

@[simp]
theorem LeafPage.valAt_mk_arr (l : LeafPage) (sz ms : Int) (f : Int → Int) (nx j : Int) :
    (LeafPage.mk sz ms f l.valArr nx).valAt j = l.valAt j := rfl

@[simp]
theorem LeafPage.keyAt_init (m j : Int) : (LeafPage.init m).keyAt j = 0 := rfl

@[simp]
theorem LeafPage.valAt_init (m j : Int) : (LeafPage.init m).valAt j = 0 := rfl

@[simp]
theorem InternalPage.keyAt_mk_arr_int (n : InternalPage) (sz ms : Int) (g : Int → Int) (j : Int) :
    (InternalPage.mk sz ms n.keyArr g).keyAt j = n.keyAt j := rfl

@[simp]
theorem InternalPage.valAt_mk_arr_int (n : InternalPage) (sz ms : Int) (f : Int → Int) (j : Int) :
    (InternalPage.mk sz ms f n.valArr).valAt j = n.valAt j := rfl

@[simp]
theorem InternalPage.keyAt_init_int (m j : Int) : (InternalPage.init m).keyAt j = 0 := rfl

@[simp]
theorem InternalPage.valAt_init_int (m j : Int) : (InternalPage.init m).valAt j = 0 := rfl

/-! ## Index-range lemmas -/

theorem mem_upRange {j lo hi : Int} : j ∈ upRange lo hi ↔ lo ≤ j ∧ j < hi := by
  simp only [upRange, List.mem_map, List.mem_range]
  constructor
  · rintro ⟨n, hn, rfl⟩
    omega
  · intro h
    exact ⟨(j - lo).toNat, by omega, by omega⟩

theorem downRange_eq_nil {hi lo : Int} (h : hi ≤ lo) : downRange hi lo = [] := by
  simp only [downRange]
  have : (hi - lo).toNat = 0 := by omega
  simp [this]

theorem downRange_cons {hi lo : Int} (h : lo < hi) :
    downRange hi lo = hi :: downRange (hi - 1) lo := by
  simp only [downRange]
  have h1 : (hi - lo).toNat = (hi - 1 - lo).toNat + 1 := by omega
  rw [h1, List.range_succ_eq_map, List.map_cons, List.map_map]
  refine congrArg₂ _ (by omega) (List.map_congr_left ?_)
  intro n _
  simp only [Function.comp_apply]
  omega

/-! ## Loop characterisation lemmas -/

theorem leafCopyLoop_size (src : LeafPage) (off : Int) (L : List Int) (dst : LeafPage) :
    (leafCopyLoop src off L dst).size = dst.size := by
  induction L generalizing dst with
  | nil => rfl
  | cons a L ih => simpa [leafCopyLoop, List.foldl_cons] using ih _

theorem leafCopyLoop_maxSize (src : LeafPage) (off : Int) (L : List Int) (dst : LeafPage) :
    (leafCopyLoop src off L dst).maxSize = dst.maxSize := by
  induction L generalizing dst with
  | nil => rfl
  | cons a L ih => simpa [leafCopyLoop, List.foldl_cons] using ih _

theorem leafCopyLoop_nextPageId (src : LeafPage) (off : Int) (L : List Int) (dst : LeafPage) :
    (leafCopyLoop src off L dst).nextPageId = dst.nextPageId := by
  induction L generalizing dst with
  | nil => rfl
  | cons a L ih => simpa [leafCopyLoop, List.foldl_cons] using ih _

theorem leafCopyLoop_keyAt (src : LeafPage) (off : Int) (L : List Int) (dst : LeafPage)
    (j : Int) :
    (leafCopyLoop src off L dst).keyAt j =
      if j ∈ L then src.keyAt (j + off) else dst.keyAt j := by
  induction L generalizing dst with
  | nil => simp [leafCopyLoop]
  | cons a L ih =>
    show (leafCopyLoop src off L _).keyAt j = _
    rw [ih]
    by_cases hL : j ∈ L
    · simp [hL]
    · by_cases ha : j = a
      · subst ha
        simp [hL]
      · simp [hL, ha]

theorem leafCopyLoop_valAt (src : LeafPage) (off : Int) (L : List Int) (dst : LeafPage)
    (j : Int) :
    (leafCopyLoop src off L dst).valAt j =
      if j ∈ L then src.valAt (j + off) else dst.valAt j := by
  induction L generalizing dst with
  | nil => simp [leafCopyLoop]
  | cons a L ih =>
    show (leafCopyLoop src off L _).valAt j = _
    rw [ih]
    by_cases hL : j ∈ L
    · simp [hL]
    · by_cases ha : j = a
      · subst ha
        simp [hL]
      · simp [hL, ha]

theorem leafShiftLoop_size (L : List Int) (l0 : LeafPage) :
    (leafShiftLoop L l0).size = l0.size := by
  induction L generalizing l0 with
  | nil => rfl
  | cons a L ih => simpa [leafShiftLoop, List.foldl_cons] using ih _

theorem leafShiftLoop_maxSize (L : List Int) (l0 : LeafPage) :
    (leafShiftLoop L l0).maxSize = l0.maxSize := by
  induction L generalizing l0 with
  | nil => rfl
  | cons a L ih => simpa [leafShiftLoop, List.foldl_cons] using ih _

theorem leafShiftLoop_nextPageId (L : List Int) (l0 : LeafPage) :
    (leafShiftLoop L l0).nextPageId = l0.nextPageId := by
  induction L generalizing l0 with
  | nil => rfl
  | cons a L ih => simpa [leafShiftLoop, List.foldl_cons] using ih _

theorem leafShiftLoop_keyAt_aux (n : Nat) :
    ∀ (hi lo : Int), (hi - lo).toNat = n → ∀ (l0 : LeafPage) (j : Int),
      (leafShiftLoop (downRange hi lo) l0).keyAt j =
        if lo < j ∧ j ≤ hi then l0.keyAt (j - 1) else l0.keyAt j := by
  induction n with
  | zero =>
    intro hi lo h l0 j
    rw [downRange_eq_nil (by omega)]
    rw [if_neg (by omega)]
    rfl
  | succ m ih =>
    intro hi lo h l0 j
    have hlt : lo < hi := by omega
    rw [downRange_cons hlt]
    show (leafShiftLoop (downRange (hi - 1) lo) _).keyAt j = _
    rw [ih (hi - 1) lo (by omega)]
    by_cases h1 : lo < j ∧ j ≤ hi - 1
    · rw [if_pos h1, if_pos (by omega)]
      simp only [LeafPage.keyAt_setValAt, LeafPage.keyAt_setKeyAt]
      rw [if_neg (by omega)]
    · rw [if_neg h1]
      by_cases h2 : j = hi
      · subst h2
        rw [if_pos (by omega)]
        simp
      · rw [if_neg (by omega)]
        simp only [LeafPage.keyAt_setValAt, LeafPage.keyAt_setKeyAt]
        rw [if_neg h2]

theorem leafShiftLoop_keyAt (hi lo : Int) (l0 : LeafPage) (j : Int) :
    (leafShiftLoop (downRange hi lo) l0).keyAt j =
      if lo < j ∧ j ≤ hi then l0.keyAt (j - 1) else l0.keyAt j :=
  leafShiftLoop_keyAt_aux (hi - lo).toNat hi lo rfl l0 j

theorem leafShiftLoop_valAt_aux (n : Nat) :
    ∀ (hi lo : Int), (hi - lo).toNat = n → ∀ (l0 : LeafPage) (j : Int),
      (leafShiftLoop (downRange hi lo) l0).valAt j =
        if lo < j ∧ j ≤ hi then l0.valAt (j - 1) else l0.valAt j := by
  induction n with
  | zero =>
    intro hi lo h l0 j
    rw [downRange_eq_nil (by omega)]
    rw [if_neg (by omega)]
    rfl
  | succ m ih =>
    intro hi lo h l0 j
    have hlt : lo < hi := by omega
    rw [downRange_cons hlt]
    show (leafShiftLoop (downRange (hi - 1) lo) _).valAt j = _
    rw [ih (hi - 1) lo (by omega)]
    by_cases h1 : lo < j ∧ j ≤ hi - 1
    · rw [if_pos h1, if_pos (by omega)]
      simp only [LeafPage.valAt_setValAt, LeafPage.valAt_setKeyAt]
      rw [if_neg (by omega)]
    · rw [if_neg h1]
      by_cases h2 : j = hi
      · subst h2
        rw [if_pos (by omega)]
        simp
      · rw [if_neg (by omega)]
        simp only [LeafPage.valAt_setValAt, LeafPage.valAt_setKeyAt]
        rw [if_neg h2]

theorem leafShiftLoop_valAt (hi lo : Int) (l0 : LeafPage) (j : Int) :
    (leafShiftLoop (downRange hi lo) l0).valAt j =
      if lo < j ∧ j ≤ hi then l0.valAt (j - 1) else l0.valAt j :=
  leafShiftLoop_valAt_aux (hi - lo).toNat hi lo rfl l0 j

theorem internalCopyLoop_size (src : InternalPage) (off : Int) (g : Bool) (L : List Int)
    (dst : InternalPage) : (internalCopyLoop src off g L dst).size = dst.size := by
  induction L generalizing dst with
  | nil => rfl
  | cons a L ih =>
    show (internalCopyLoop src off g L _).size = _
    rw [ih]
    by_cases hg : g = false ∨ 0 < a <;> simp [hg]

theorem internalCopyLoop_maxSize (src : InternalPage) (off : Int) (g : Bool) (L : List Int)
    (dst : InternalPage) : (internalCopyLoop src off g L dst).maxSize = dst.maxSize := by
  induction L generalizing dst with
  | nil => rfl
  | cons a L ih =>
    show (internalCopyLoop src off g L _).maxSize = _
    rw [ih]
    by_cases hg : g = false ∨ 0 < a <;> simp [hg]

theorem internalCopyLoop_keyAt (src : InternalPage) (off : Int) (g : Bool) (L : List Int)
    (dst : InternalPage) (j : Int) :
    (internalCopyLoop src off g L dst).keyAt j =
      if j ∈ L ∧ (g = false ∨ 0 < j) then src.keyAt (j + off) else dst.keyAt j := by
  induction L generalizing dst with
  | nil => simp [internalCopyLoop]
  | cons a L ih =>
    show (internalCopyLoop src off g L _).keyAt j = _
    rw [ih]
    by_cases hL : j ∈ L ∧ (g = false ∨ 0 < j)
    · rw [if_pos hL, if_pos ⟨List.mem_cons_of_mem a hL.1, hL.2⟩]
    · rw [if_neg hL]
      by_cases ha : j = a
      · subst ha
        by_cases hguard : g = false ∨ 0 < j
        · rw [if_pos ⟨List.mem_cons_self j L, hguard⟩]
          simp [hguard]
        · rw [if_neg (fun hc => hguard hc.2)]
          simp [hguard]
      · have : ¬ (j ∈ a :: L ∧ (g = false ∨ 0 < j)) := by
          intro hc
          rcases List.mem_cons.mp hc.1 with h | h
          · exact ha h
          · exact hL ⟨h, hc.2⟩
        rw [if_neg this]
        by_cases hguard : g = false ∨ 0 < a <;> simp [hguard, ha]

theorem internalCopyLoop_valAt (src : InternalPage) (off : Int) (g : Bool) (L : List Int)
    (dst : InternalPage) (j : Int) :
    (internalCopyLoop src off g L dst).valAt j =
      if j ∈ L then src.valAt (j + off) else dst.valAt j := by
  induction L generalizing dst with
  | nil => simp [internalCopyLoop]
  | cons a L ih =>
    show (internalCopyLoop src off g L _).valAt j = _
    rw [ih]
    by_cases hL : j ∈ L
    · simp [hL]
    · by_cases ha : j = a
      · subst ha
        by_cases hguard : g = false ∨ 0 < j <;> simp [hL, hguard]
      · by_cases hguard : g = false ∨ 0 < a <;> simp [hL, ha, hguard]

theorem internalShiftLoop_size (L : List Int) (p0 : InternalPage) :
    (internalShiftLoop L p0).size = p0.size := by
  induction L generalizing p0 with
  | nil => rfl
  | cons a L ih => simpa [internalShiftLoop, List.foldl_cons] using ih _

theorem internalShiftLoop_maxSize (L : List Int) (p0 : InternalPage) :
    (internalShiftLoop L p0).maxSize = p0.maxSize := by
  induction L generalizing p0 with
  | nil => rfl
  | cons a L ih => simpa [internalShiftLoop, List.foldl_cons] using ih _

theorem internalShiftLoop_keyAt_aux (n : Nat) :
    ∀ (hi lo : Int), (hi - lo).toNat = n → ∀ (p0 : InternalPage) (j : Int),
      (internalShiftLoop (downRange hi lo) p0).keyAt j =
        if lo < j ∧ j ≤ hi then p0.keyAt (j - 1) else p0.keyAt j := by
  induction n with
  | zero =>
    intro hi lo h p0 j
    rw [downRange_eq_nil (by omega)]
    rw [if_neg (by omega)]
    rfl
  | succ m ih =>
    intro hi lo h p0 j
    have hlt : lo < hi := by omega
    rw [downRange_cons hlt]
    show (internalShiftLoop (downRange (hi - 1) lo) _).keyAt j = _
    rw [ih (hi - 1) lo (by omega)]
    by_cases h1 : lo < j ∧ j ≤ hi - 1
    · rw [if_pos h1, if_pos (by omega)]
      simp only [InternalPage.keyAt_setValAt_int, InternalPage.keyAt_setKeyAt_int]
      rw [if_neg (by omega)]
    · rw [if_neg h1]
      by_cases h2 : j = hi
      · subst h2
        rw [if_pos (by omega)]
        simp
      · rw [if_neg (by omega)]
        simp only [InternalPage.keyAt_setValAt_int, InternalPage.keyAt_setKeyAt_int]
        rw [if_neg h2]

theorem internalShiftLoop_keyAt (hi lo : Int) (p0 : InternalPage) (j : Int) :
    (internalShiftLoop (downRange hi lo) p0).keyAt j =
      if lo < j ∧ j ≤ hi then p0.keyAt (j - 1) else p0.keyAt j :=
  internalShiftLoop_keyAt_aux (hi - lo).toNat hi lo rfl p0 j

theorem internalShiftLoop_valAt_aux (n : Nat) :
    ∀ (hi lo : Int), (hi - lo).toNat = n → ∀ (p0 : InternalPage) (j : Int),
      (internalShiftLoop (downRange hi lo) p0).valAt j =
        if lo < j ∧ j ≤ hi then p0.valAt (j - 1) else p0.valAt j := by
  induction n with
  | zero =>
    intro hi lo h p0 j
    rw [downRange_eq_nil (by omega)]
    rw [if_neg (by omega)]
    rfl
  | succ m ih =>
    intro hi lo h p0 j
    have hlt : lo < hi := by omega
    rw [downRange_cons hlt]
    show (internalShiftLoop (downRange (hi - 1) lo) _).valAt j = _
    rw [ih (hi - 1) lo (by omega)]
    by_cases h1 : lo < j ∧ j ≤ hi - 1
    · rw [if_pos h1, if_pos (by omega)]
      simp only [InternalPage.valAt_setValAt_int, InternalPage.valAt_setKeyAt_int]
      rw [if_neg (by omega)]
    · rw [if_neg h1]
      by_cases h2 : j = hi
      · subst h2
        rw [if_pos (by omega)]
        simp
      · rw [if_neg (by omega)]
        simp only [InternalPage.valAt_setValAt_int, InternalPage.valAt_setKeyAt_int]
        rw [if_neg h2]

theorem internalShiftLoop_valAt (hi lo : Int) (p0 : InternalPage) (j : Int) :
    (internalShiftLoop (downRange hi lo) p0).valAt j =
      if lo < j ∧ j ≤ hi then p0.valAt (j - 1) else p0.valAt j :=
  internalShiftLoop_valAt_aux (hi - lo).toNat hi lo rfl p0 j

/-! ## Characterisation of the leaf split -/

theorem splitLeaf_fst_size (cfg : Int) (lf : LeafPage) (nid p k : Int) (v : Nat) :
    (splitLeaf cfg lf nid p k v).1.size = (lf.maxSize + 2) / 2 := by
  simp only [splitLeaf]
  by_cases hp : p < (lf.maxSize + 2) / 2 <;>
    simp [hp, leafShiftLoop_size]

theorem splitLeaf_snd_size (cfg : Int) (lf : LeafPage) (nid p k : Int) (v : Nat) :
    (splitLeaf cfg lf nid p k v).2.size = lf.maxSize + 1 - (lf.maxSize + 2) / 2 := by
  simp only [splitLeaf]
  by_cases hp : p < (lf.maxSize + 2) / 2 <;>
    simp [hp, leafCopyLoop_size]

theorem splitLeaf_fst_maxSize (cfg : Int) (lf : LeafPage) (nid p k : Int) (v : Nat) :
    (splitLeaf cfg lf nid p k v).1.maxSize = lf.maxSize := by
  simp only [splitLeaf]
  by_cases hp : p < (lf.maxSize + 2) / 2 <;>
    simp [hp, leafShiftLoop_maxSize]

theorem splitLeaf_snd_maxSize (cfg : Int) (lf : LeafPage) (nid p k : Int) (v : Nat) :
    (splitLeaf cfg lf nid p k v).2.maxSize = cfg := by
  simp only [splitLeaf]
  by_cases hp : p < (lf.maxSize + 2) / 2 <;>
    simp [hp, leafCopyLoop_maxSize, LeafPage.init]

theorem splitLeaf_fst_nextPageId (cfg : Int) (lf : LeafPage) (nid p k : Int) (v : Nat) :
    (splitLeaf cfg lf nid p k v).1.nextPageId = nid := by
  simp only [splitLeaf]
  by_cases hp : p < (lf.maxSize + 2) / 2 <;>
    simp [hp, leafShiftLoop_nextPageId]

theorem splitLeaf_snd_nextPageId (cfg : Int) (lf : LeafPage) (nid p k : Int) (v : Nat) :
    (splitLeaf cfg lf nid p k v).2.nextPageId = lf.nextPageId := by
  simp only [splitLeaf]
  by_cases hp : p < (lf.maxSize + 2) / 2 <;>
    simp [hp, leafCopyLoop_nextPageId]

theorem splitLeaf_fst_keyAt (cfg : Int) (lf : LeafPage) (nid p k : Int) (v : Nat)
    (j : Int) (hj : j < (lf.maxSize + 2) / 2) :
    (splitLeaf cfg lf nid p k v).1.keyAt j = insSeqKeyAt lf p k j := by
  simp only [splitLeaf]
  by_cases hp : p < (lf.maxSize + 2) / 2
  · simp only [if_pos hp, LeafPage.keyAt_setValAt, LeafPage.keyAt_setKeyAt,
      leafShiftLoop_keyAt, insSeqKeyAt]
    by_cases hjp : j = p
    · simp [hjp]
    · rw [if_neg hjp]
      by_cases hlt : j < p
      · rw [if_neg (by omega), if_pos hlt]
        rfl
      · rw [if_pos (by omega), if_neg hlt, if_neg hjp]
        rfl
  · simp only [if_neg hp, insSeqKeyAt]
    rw [if_pos (by omega)]
    rfl

theorem splitLeaf_fst_valAt (cfg : Int) (lf : LeafPage) (nid p k : Int) (v : Nat)
    (j : Int) (hj : j < (lf.maxSize + 2) / 2) :
    (splitLeaf cfg lf nid p k v).1.valAt j = insSeqValAt lf p v j := by
  simp only [splitLeaf]
  by_cases hp : p < (lf.maxSize + 2) / 2
  · simp only [if_pos hp, LeafPage.valAt_setValAt, LeafPage.valAt_setKeyAt,
      leafShiftLoop_valAt, insSeqValAt]
    by_cases hjp : j = p
    · simp [hjp]
    · rw [if_neg hjp]
      by_cases hlt : j < p
      · rw [if_neg (by omega), if_pos hlt]
        rfl
      · rw [if_pos (by omega), if_neg hlt, if_neg hjp]
        rfl
  · simp only [if_neg hp, insSeqValAt]
    rw [if_pos (by omega)]
    rfl

theorem splitLeaf_snd_keyAt (cfg : Int) (lf : LeafPage) (nid p k : Int) (v : Nat)
    (hpM : p ≤ lf.maxSize)
    (j : Int) (hj0 : 0 ≤ j) (hj : j < lf.maxSize + 1 - (lf.maxSize + 2) / 2) :
    (splitLeaf cfg lf nid p k v).2.keyAt j =
      insSeqKeyAt lf p k ((lf.maxSize + 2) / 2 + j) := by
  have hfirst : 1 ≤ (lf.maxSize + 2) / 2 := by omega
  simp only [splitLeaf]
  by_cases hp : p < (lf.maxSize + 2) / 2 <;>
    · simp only [hp, if_true, if_false, leafCopyLoop_keyAt, LeafPage.keyAt_setValAt,
        LeafPage.keyAt_setKeyAt, LeafPage.keyAt_mk_arr, LeafPage.keyAt_init,
        insSeqKeyAt, mem_upRange]
      split_ifs <;> first | rfl | omega | (congr 1; omega) | (exfalso; omega)

theorem splitLeaf_snd_valAt (cfg : Int) (lf : LeafPage) (nid p k : Int) (v : Nat)
    (hpM : p ≤ lf.maxSize)
    (j : Int) (hj0 : 0 ≤ j) (hj : j < lf.maxSize + 1 - (lf.maxSize + 2) / 2) :
    (splitLeaf cfg lf nid p k v).2.valAt j =
      insSeqValAt lf p v ((lf.maxSize + 2) / 2 + j) := by
  have hfirst : 1 ≤ (lf.maxSize + 2) / 2 := by omega
  simp only [splitLeaf]
  by_cases hp : p < (lf.maxSize + 2) / 2 <;>
    · simp only [hp, if_true, if_false, leafCopyLoop_valAt, LeafPage.valAt_setValAt,
        LeafPage.valAt_setKeyAt, LeafPage.valAt_mk_arr, LeafPage.valAt_init,
        insSeqValAt, mem_upRange]
      split_ifs <;> first | rfl | omega | (congr 1; omega) | (exfalso; omega)

/-! ## Characterisation of the internal split -/

theorem splitInternal_fst_size (cfg : Int) (ip : InternalPage) (p ik sc : Int) :
    (splitInternal cfg ip p ik sc).1.size = (ip.maxSize + 2) / 2 := by
  simp only [splitInternal]
  by_cases hp : p < (ip.maxSize + 2) / 2 <;>
    simp [hp, internalShiftLoop_size]

theorem splitInternal_snd_size (cfg : Int) (ip : InternalPage) (p ik sc : Int) :
    (splitInternal cfg ip p ik sc).2.1.size = ip.maxSize + 1 - (ip.maxSize + 2) / 2 := by
  simp only [splitInternal]
  by_cases hp : p < (ip.maxSize + 2) / 2
  · simp [hp, internalCopyLoop_size]
  · by_cases hq : (ip.maxSize + 2) / 2 < p <;>
      simp [hp, hq, internalCopyLoop_size]

theorem splitInternal_fst_maxSize (cfg : Int) (ip : InternalPage) (p ik sc : Int) :
    (splitInternal cfg ip p ik sc).1.maxSize = ip.maxSize := by
  simp only [splitInternal]
  by_cases hp : p < (ip.maxSize + 2) / 2 <;>
    simp [hp, internalShiftLoop_maxSize]

theorem splitInternal_snd_maxSize (cfg : Int) (ip : InternalPage) (p ik sc : Int) :
    (splitInternal cfg ip p ik sc).2.1.maxSize = cfg := by
  simp only [splitInternal]
  by_cases hp : p < (ip.maxSize + 2) / 2
  · simp [hp, internalCopyLoop_maxSize, InternalPage.init]
  · by_cases hq : (ip.maxSize + 2) / 2 < p <;>
      simp [hp, hq, internalCopyLoop_maxSize, InternalPage.init]

theorem splitInternal_fst_valAt (cfg : Int) (ip : InternalPage) (p ik sc : Int)
    (j : Int) (hj : j < (ip.maxSize + 2) / 2) :
    (splitInternal cfg ip p ik sc).1.valAt j = (logicalPairAt ip p ik sc j).1 := by
  simp only [splitInternal]
  by_cases hp : p < (ip.maxSize + 2) / 2 <;>
    · simp only [hp, if_true, if_false, InternalPage.valAt_setValAt_int,
        InternalPage.valAt_setKeyAt_int, InternalPage.valAt_mk_arr_int, InternalPage.valAt_init_int,
        internalShiftLoop_valAt, logicalPairAt]
      split_ifs <;> first | rfl | omega | (congr 1; omega) | (exfalso; omega)

theorem splitInternal_fst_keyAt (cfg : Int) (ip : InternalPage) (p ik sc : Int)
    (j : Int) (hj : j < (ip.maxSize + 2) / 2) :
    (splitInternal cfg ip p ik sc).1.keyAt j = (logicalPairAt ip p ik sc j).2 := by
  simp only [splitInternal]
  by_cases hp : p < (ip.maxSize + 2) / 2 <;>
    · simp only [hp, if_true, if_false, InternalPage.keyAt_setValAt_int,
        InternalPage.keyAt_setKeyAt_int, InternalPage.keyAt_mk_arr_int, InternalPage.keyAt_init_int,
        internalShiftLoop_keyAt, logicalPairAt]
      split_ifs <;> first | rfl | omega | (congr 1; omega) | (exfalso; omega)

theorem splitInternal_snd_valAt (cfg : Int) (ip : InternalPage) (p ik sc : Int)
    (j : Int) (hj0 : 0 ≤ j) (hj : j < ip.maxSize + 1 - (ip.maxSize + 2) / 2) :
    (splitInternal cfg ip p ik sc).2.1.valAt j =
      (logicalPairAt ip p ik sc ((ip.maxSize + 2) / 2 + j)).1 := by
  simp only [splitInternal]
  by_cases hp : p < (ip.maxSize + 2) / 2
  · simp only [hp, if_true, internalCopyLoop_valAt, InternalPage.valAt_setValAt_int,
      InternalPage.valAt_setKeyAt_int, InternalPage.valAt_mk_arr_int, InternalPage.valAt_init_int,
      logicalPairAt, mem_upRange]
    split_ifs <;> first | rfl | omega | (congr 1; omega) | (exfalso; omega)
  · by_cases hq : (ip.maxSize + 2) / 2 < p <;>
      · simp only [hp, hq, if_true, if_false, internalCopyLoop_valAt,
          InternalPage.valAt_setValAt_int, InternalPage.valAt_setKeyAt_int,
          InternalPage.valAt_mk_arr_int, InternalPage.valAt_init_int, logicalPairAt, mem_upRange]
        split_ifs <;> first | rfl | omega | (congr 1; omega) | (exfalso; omega)

theorem splitInternal_snd_keyAt (cfg : Int) (ip : InternalPage) (p ik sc : Int)
    (j : Int) (hj1 : 1 ≤ j) (hj : j < ip.maxSize + 1 - (ip.maxSize + 2) / 2) :
    (splitInternal cfg ip p ik sc).2.1.keyAt j =
      (logicalPairAt ip p ik sc ((ip.maxSize + 2) / 2 + j)).2 := by
  simp only [splitInternal]
  by_cases hp : p < (ip.maxSize + 2) / 2
  · simp only [hp, if_true, internalCopyLoop_keyAt, InternalPage.keyAt_setValAt_int,
      InternalPage.keyAt_setKeyAt_int, InternalPage.keyAt_mk_arr_int, InternalPage.keyAt_init_int,
      logicalPairAt, mem_upRange]
    split_ifs <;> first | rfl | omega | (congr 1; omega) | (exfalso; omega)
  · by_cases hq : (ip.maxSize + 2) / 2 < p <;>
      · simp only [hp, hq, if_true, if_false, internalCopyLoop_keyAt,
          InternalPage.keyAt_setValAt_int, InternalPage.keyAt_setKeyAt_int,
          InternalPage.keyAt_mk_arr_int, InternalPage.keyAt_init_int, logicalPairAt, mem_upRange]
        split_ifs <;> first | rfl | omega | (congr 1; omega) | (exfalso; omega)

theorem splitInternal_promoted (cfg : Int) (ip : InternalPage) (p ik sc : Int) :
    (splitInternal cfg ip p ik sc).2.2 =
      (logicalPairAt ip p ik sc
        (if p = (ip.maxSize + 2) / 2 then (ip.maxSize + 2) / 2 + 1
         else (ip.maxSize + 2) / 2)).2 := by
  simp only [splitInternal]
  by_cases hp : p < (ip.maxSize + 2) / 2 <;>
    · simp only [hp, if_true, if_false, InternalPage.keyAt_mk_arr_int, logicalPairAt]
      split_ifs <;> first | rfl | omega | (congr 1; omega) | (exfalso; omega)

/-! ## Correctness of `IndexBinarySearchLeaf` on sorted duplicate-free leaves -/

theorem ibslLoop_eq (pg : LeafPage) (key c : Int)
    (hc : ∀ i, 0 ≤ i → i < pg.size → (pg.keyAt i < key ↔ i < c))
    (hcs : c ≤ pg.size) :
    ∀ (fuel : Nat) (l r : Int), 0 ≤ l → l < c → c ≤ r + 1 → r ≤ pg.size - 1 →
      (r + 1 - l).toNat < fuel →
      ibslLoop pg key fuel l r = c := by
  intro fuel
  induction fuel with
  | zero =>
    intro l r _ _ _ _ h
    omega
  | succ m ih =>
    intro l r hl0 hlc hcr hrs hfuel
    have hlr : l ≤ r := by omega
    simp only [ibslLoop]
    rw [if_pos hlr]
    have hmid_lb : l ≤ (l + r) / 2 := by omega
    have hmid_ub : (l + r) / 2 ≤ r := by omega
    by_cases h1 : pg.keyAt ((l + r) / 2) < key
    · have hmidc : (l + r) / 2 < c := (hc _ (by omega) (by omega)).mp h1
      rw [if_pos h1]
      by_cases h2 : (l + r) / 2 + 1 ≥ pg.size ∨ pg.keyAt ((l + r) / 2 + 1) ≥ key
      · rw [if_pos h2]
        rcases h2 with h2 | h2
        · omega
        · by_cases h3 : (l + r) / 2 + 1 < pg.size
          · have h4 : ¬ ((l + r) / 2 + 1 < c) := fun hcc =>
              absurd ((hc _ (by omega) h3).mpr hcc) (by omega)
            omega
          · omega
      · rw [if_neg h2]
        push_neg at h2
        have h5 : (l + r) / 2 + 1 < c := (hc _ (by omega) (by omega)).mp h2.2
        exact ih ((l + r) / 2 + 1) r (by omega) (by omega) (by omega) hrs (by omega)
    · rw [if_neg h1]
      have hcm : c ≤ (l + r) / 2 := by
        by_contra hcc
        exact h1 ((hc _ (by omega) (by omega)).mpr (by omega))
      exact ih l ((l + r) / 2 - 1) hl0 hlc (by omega) (by omega) (by omega)

theorem indexBinarySearchLeaf_eq (pg : LeafPage) (key c : Int)
    (hsz : 0 < pg.size)
    (hc : ∀ i, 0 ≤ i → i < pg.size → (pg.keyAt i < key ↔ i < c))
    (hfresh : ∀ i, 0 ≤ i → i < pg.size → pg.keyAt i ≠ key)
    (hc0 : 0 ≤ c) (hcs : c ≤ pg.size) :
    indexBinarySearchLeaf pg key = c := by
  unfold indexBinarySearchLeaf
  by_cases h0 : key < pg.keyAt 0
  · rw [if_pos h0]
    have h2 := hc 0 le_rfl hsz
    omega
  · rw [if_neg h0]
    have h1 : pg.keyAt 0 < key := by
      have := hfresh 0 le_rfl hsz
      omega
    have hc1 : 0 < c := (hc 0 le_rfl hsz).mp h1
    exact ibslLoop_eq pg key c hc hcs (pg.size + 2).toNat 0 (pg.size - 1)
      le_rfl hc1 (by omega) (by omega) (by omega)

/-- On a sorted, duplicate-free leaf, the insert position exists: there is a
`c` such that exactly the keys at slots `< c` compare below the probe key. -/
theorem exists_insert_position (pg : LeafPage) (key : Int) (hsz : 0 ≤ pg.size)
    (hsorted : ∀ i j, 0 ≤ i → i < j → j < pg.size → pg.keyAt i < pg.keyAt j)
    (hfresh : ∀ i, 0 ≤ i → i < pg.size → pg.keyAt i ≠ key) :
    ∃ c, 0 ≤ c ∧ c ≤ pg.size ∧
      ∀ i, 0 ≤ i → i < pg.size → (pg.keyAt i < key ↔ i < c) := by
  by_cases hex : ∃ n : Nat, (n : Int) < pg.size ∧ ¬ pg.keyAt n < key
  · classical
    obtain ⟨c0, ⟨hc0s, hc0k⟩, hmin⟩ := Nat.findX hex
    refine ⟨(c0 : Int), by omega, by omega, ?_⟩
    intro i hi0 his
    constructor
    · intro hik
      by_contra hic
      -- c0 ≤ i and keyAt i < key; but keyAt c0 ≥ key and sortedness give keyAt c0 ≤ keyAt i
      rcases eq_or_lt_of_le (show (c0 : Int) ≤ i by omega) with h | h
      · exact hc0k (by rw [h]; exact hik)
      · exact absurd (lt_trans (by
          -- keyAt c0 < keyAt i
          have := hsorted (c0 : Int) i (by omega) h his
          exact this) hik) hc0k
    · intro hic
      have hne : ¬ ((i.toNat : Int) < pg.size ∧ ¬ pg.keyAt i.toNat < key) :=
        hmin i.toNat (by omega)
      push_neg at hne
      have : pg.keyAt i.toNat < key := hne (by omega)
      have harg : (i.toNat : Int) = i := by omega
      rwa [harg] at this
  · push_neg at hex
    refine ⟨pg.size, hsz, le_rfl, ?_⟩
    intro i hi0 his
    constructor
    · intro _
      exact his
    · intro _
      have := hex i.toNat
      have harg : (i.toNat : Int) = i := by omega
      rw [harg] at this
      exact this his

/-! ## List helpers for the split merge statement -/

theorem keysList_length (l : LeafPage) : l.keysList.length = l.size.toNat := by
  simp [LeafPage.keysList]

theorem valsList_length (l : LeafPage) : l.valsList.length = l.size.toNat := by
  simp [LeafPage.valsList]

theorem keysList_getElem? (l : LeafPage) (n : Nat) :
    l.keysList[n]? = if (n : Int) < l.size then some (l.keyAt n) else none := by
  simp only [LeafPage.keysList, List.getElem?_map]
  by_cases h : n < l.size.toNat
  · rw [List.getElem?_range h, if_pos (by omega)]
    rfl
  · rw [List.getElem?_eq_none (by simpa using by omega), if_neg (by omega)]
    rfl

theorem valsList_getElem? (l : LeafPage) (n : Nat) :
    l.valsList[n]? = if (n : Int) < l.size then some (l.valAt n) else none := by
  simp only [LeafPage.valsList, List.getElem?_map]
  by_cases h : n < l.size.toNat
  · rw [List.getElem?_range h, if_pos (by omega)]
    rfl
  · rw [List.getElem?_eq_none (by simpa using by omega), if_neg (by omega)]
    rfl

theorem insertList_getElem? {α : Type} (K : List α) (p : Nat) (k : α)
    (hp : p ≤ K.length) (n : Nat) :
    (K.take p ++ k :: K.drop p)[n]? =
      if n < p then K[n]? else if n = p then some k else K[n - 1]? := by
  rw [List.getElem?_append, List.length_take]
  have hmin : min p K.length = p := by omega
  rw [hmin]
  by_cases h1 : n < p
  · rw [if_pos h1, if_pos h1, List.getElem?_take, if_pos h1]
  · rw [if_neg h1, if_neg h1, List.getElem?_cons]
    by_cases h2 : n = p
    · rw [if_pos (by omega), if_pos h2]
    · rw [if_neg (by omega), if_neg h2, List.getElem?_drop]
      congr 1
      omega

/-- Concatenating the two leaves produced by `splitLeaf` yields, key for key,
the logical sequence `keys[0..p) ++ [k] ++ keys[p..size)`. -/
theorem splitLeaf_keys_concat (cfg : Int) (lf : LeafPage) (nid p k : Int) (v : Nat)
    (hfull : lf.size = lf.maxSize) (hM : 1 ≤ lf.maxSize) (hp0 : 0 ≤ p) (hps : p ≤ lf.size) :
    (splitLeaf cfg lf nid p k v).1.keysList ++ (splitLeaf cfg lf nid p k v).2.keysList
      = lf.keysList.take p.toNat ++ k :: lf.keysList.drop p.toNat := by
  apply List.ext_getElem?
  intro n
  rw [List.getElem?_append,
    insertList_getElem? lf.keysList p.toNat k (by rw [keysList_length]; omega) n,
    keysList_length, splitLeaf_fst_size]
  by_cases hn1 : n < ((lf.maxSize + 2) / 2).toNat
  · rw [if_pos hn1, keysList_getElem?, splitLeaf_fst_size, if_pos (by omega),
      splitLeaf_fst_keyAt cfg lf nid p k v (n : Int) (by omega)]
    simp only [insSeqKeyAt, keysList_getElem?]
    split_ifs <;> first | rfl | omega | (exfalso; omega) | (congr 2 <;> omega)
  · rw [if_neg hn1, keysList_getElem?, splitLeaf_snd_size]
    by_cases hn2 : ((n - ((lf.maxSize + 2) / 2).toNat : Nat) : Int)
        < lf.maxSize + 1 - (lf.maxSize + 2) / 2
    · rw [if_pos hn2,
        splitLeaf_snd_keyAt cfg lf nid p k v (by omega) _ (by omega) hn2]
      simp only [insSeqKeyAt, keysList_getElem?]
      split_ifs <;> first | rfl | omega | (exfalso; omega) | (congr 2 <;> omega)
    · rw [if_neg hn2]
      simp only [keysList_getElem?]
      split_ifs <;> first | rfl | omega | (exfalso; omega) | (congr 2 <;> omega)

/-- Concatenating the two leaves produced by `splitLeaf` yields, value for
value, the logical sequence `values[0..p) ++ [v] ++ values[p..size)`. -/
theorem splitLeaf_vals_concat (cfg : Int) (lf : LeafPage) (nid p k : Int) (v : Nat)
    (hfull : lf.size = lf.maxSize) (hM : 1 ≤ lf.maxSize) (hp0 : 0 ≤ p) (hps : p ≤ lf.size) :
    (splitLeaf cfg lf nid p k v).1.valsList ++ (splitLeaf cfg lf nid p k v).2.valsList
      = lf.valsList.take p.toNat ++ v :: lf.valsList.drop p.toNat := by
  apply List.ext_getElem?
  intro n
  rw [List.getElem?_append,
    insertList_getElem? lf.valsList p.toNat v (by rw [valsList_length]; omega) n,
    valsList_length, splitLeaf_fst_size]
  by_cases hn1 : n < ((lf.maxSize + 2) / 2).toNat
  · rw [if_pos hn1, valsList_getElem?, splitLeaf_fst_size, if_pos (by omega),
      splitLeaf_fst_valAt cfg lf nid p k v (n : Int) (by omega)]
    simp only [insSeqValAt, valsList_getElem?]
    split_ifs <;> first | rfl | omega | (exfalso; omega) | (congr 2 <;> omega)
  · rw [if_neg hn1, valsList_getElem?, splitLeaf_snd_size]
    by_cases hn2 : ((n - ((lf.maxSize + 2) / 2).toNat : Nat) : Int)
        < lf.maxSize + 1 - (lf.maxSize + 2) / 2
    · rw [if_pos hn2,
        splitLeaf_snd_valAt cfg lf nid p k v (by omega) _ (by omega) hn2]
      simp only [insSeqValAt, valsList_getElem?]
      split_ifs <;> first | rfl | omega | (exfalso; omega) | (congr 2 <;> omega)
    · rw [if_neg hn2]
      simp only [valsList_getElem?]
      split_ifs <;> first | rfl | omega | (exfalso; omega) | (congr 2 <;> omega)

/-! ## Cascade bookkeeping lemmas -/

theorem insertCascade_nextFresh_le (cfg : Int) :
    ∀ (l : List (Int × InternalPage × Int)) (pages : Int → Option Page) (nf ik sc : Int),
      nf ≤ (insertCascade cfg l pages nf ik sc).2.1 := by
  intro l
  induction l with
  | nil =>
    intro pages nf ik sc
    exact le_rfl
  | cons a rest ih =>
    intro pages nf ik sc
    obtain ⟨pid, ip, idx⟩ := a
    simp only [insertCascade]
    by_cases hfull : ip.size < ip.maxSize
    · rw [if_pos hfull]
    · rw [if_neg hfull]
      exact le_trans (by omega) (ih _ (nf + 1) _ _)

theorem insertCascade_sc_bounds (cfg : Int) :
    ∀ (l : List (Int × InternalPage × Int)) (pages : Int → Option Page) (nf ik sc a : Int),
      a ≤ sc → sc < nf →
      a ≤ (insertCascade cfg l pages nf ik sc).2.2.2.2
      ∧ (insertCascade cfg l pages nf ik sc).2.2.2.2
          < (insertCascade cfg l pages nf ik sc).2.1 := by
  intro l
  induction l with
  | nil =>
    intro pages nf ik sc a h1 h2
    exact ⟨h1, h2⟩
  | cons x rest ih =>
    intro pages nf ik sc a h1 h2
    obtain ⟨pid, ip, idx⟩ := x
    simp only [insertCascade]
    by_cases hfull : ip.size < ip.maxSize
    · rw [if_pos hfull]
      exact ⟨h1, h2⟩
    · rw [if_neg hfull]
      exact ih _ (nf + 1) _ nf a (by omega) (by omega)

/-- Root handling of the full-leaf insert path: either the cascade absorbed
the split at a non-full ancestor and the header's root id is untouched, or
every ancestor (root included) was split and a fresh internal root of size 2
is installed, with `children[0]` the old root id and `children[1]` a page
allocated during this very insert. -/
theorem insertSplitPath_root (s : BPTState) (path : List (Int × InternalPage × Int))
    (leafId : Int) (lf : LeafPage) (insertIndex key : Int) (v : Nat) :
    (insertSplitPath s path leafId lf insertIndex key v).2.rootPageId = s.rootPageId
    ∨ (s.nextFresh < (insertSplitPath s path leafId lf insertIndex key v).2.rootPageId
       ∧ isInternalFrame (insertSplitPath s path leafId lf insertIndex key v).2
           ((insertSplitPath s path leafId lf insertIndex key v).2.rootPageId) = true
       ∧ (internalAt (insertSplitPath s path leafId lf insertIndex key v).2
           ((insertSplitPath s path leafId lf insertIndex key v).2.rootPageId)).size = 2
       ∧ (internalAt (insertSplitPath s path leafId lf insertIndex key v).2
           ((insertSplitPath s path leafId lf insertIndex key v).2.rootPageId)).maxSize
           = s.internalMaxSize
       ∧ (internalAt (insertSplitPath s path leafId lf insertIndex key v).2
           ((insertSplitPath s path leafId lf insertIndex key v).2.rootPageId)).valAt 0
           = s.rootPageId
       ∧ s.nextFresh ≤ (internalAt (insertSplitPath s path leafId lf insertIndex key v).2
           ((insertSplitPath s path leafId lf insertIndex key v).2.rootPageId)).valAt 1
       ∧ (internalAt (insertSplitPath s path leafId lf insertIndex key v).2
           ((insertSplitPath s path leafId lf insertIndex key v).2.rootPageId)).valAt 1
           < (insertSplitPath s path leafId lf insertIndex key v).2.rootPageId
       ∧ (insertSplitPath s path leafId lf insertIndex key v).2.nextFresh
           = (insertSplitPath s path leafId lf insertIndex key v).2.rootPageId + 1) := by
  simp only [insertSplitPath]
  set sp := splitLeaf s.leafMaxSize lf s.nextFresh insertIndex key v with hsp
  set pages1 := updPages (updPages s.pages leafId (Page.leaf sp.1)) s.nextFresh
    (Page.leaf sp.2) with hpages1
  set c := insertCascade s.internalMaxSize path.reverse pages1 (s.nextFresh + 1)
    (sp.2.keyAt 0) s.nextFresh with hc
  by_cases hflag : c.2.2.1 = true
  · right
    rw [if_pos hflag]
    have hmono : s.nextFresh + 1 ≤ c.2.1 := by
      rw [hc]
      exact insertCascade_nextFresh_le s.internalMaxSize path.reverse pages1
        (s.nextFresh + 1) (sp.2.keyAt 0) s.nextFresh
    have hsc : s.nextFresh ≤ c.2.2.2.2 ∧ c.2.2.2.2 < c.2.1 := by
      rw [hc]
      exact insertCascade_sc_bounds s.internalMaxSize path.reverse pages1
        (s.nextFresh + 1) (sp.2.keyAt 0) s.nextFresh s.nextFresh le_rfl (by omega)
    refine ⟨?_, ?_, ?_, ?_, ?_, ?_, ?_, rfl⟩
    · show s.nextFresh < c.2.1
      omega
    · simp [isInternalFrame, updPages]
    · simp [internalAt, updPages]
    · simp [internalAt, updPages, InternalPage.init]
    · simp [internalAt, updPages]
    · show s.nextFresh ≤ (internalAt _ _).valAt 1
      simp only [internalAt, updPages, if_pos rfl]
      simpa using hsc.1
    · show (internalAt _ _).valAt 1 < c.2.1
      simp only [internalAt, updPages, if_pos rfl]
      simpa using hsc.2
  · left
    rw [if_neg hflag]

/-! ## Claim theorems -/


/-- C1 (code bug, failing input): with `M_l = 2`, `M_i = 3`, after inserting
10,20,30,40,50,60, the call `Insert(45)` returns `true` — but an immediate
`GetValue(45)` does not find the key.  The insert's cascade split the full
root at insert position `first_size` and promoted `KeyAt(first_size)` = 50
instead of the separator 45 of the freshly split-off leaf, so the new root
routes 45 into the left subtree, which does not contain it. -/
theorem c1_insert_then_get_loses_key :
    (insert bugBase 45 7).1 = true ∧ getValue bugFinal 45 = none := by
  constructor <;> rfl

/-- C2 (code bug, failing input): the tree holds exactly the key 5, yet
`Insert(5)` returns `true` instead of `false`: `IndexBinarySearchLeaf` returns
`-1` when the key equals the leaf's smallest key (the early `return 0` needs a
strict `<` and the loop never takes the `mid + 1` exit), so the duplicate
check compares `KeyAt(-1)` — a slot outside the valid range (on the model's
zero-initialised frame it reads 0 ≠ 5) — and the duplicate is inserted. -/
theorem c2_duplicate_at_slot0_not_rejected :
    (leafAt dupBase dupBase.rootPageId).keysList = [5]
    ∧ (insert dupBase 5 2).1 = true
    ∧ indexBinarySearchLeaf (leafAt dupBase dupBase.rootPageId) 5 = -1 := by
  refine ⟨rfl, rfl, rfl⟩

/-- C3 (code bug, failing input): after the completed (true-returning) insert
of 45 into `bugBase`, the root's separator `keys[1]` is 50 while the minimum
key stored in the subtree rooted at `children[1]` is 45 — separator agreement
is violated.  Cause: the internal split at insert position `first_size`
promotes `KeyAt(first_size)` instead of the cascading key. -/
theorem c3_separator_agreement_violated :
    (insert bugBase 45 7).1 = true
    ∧ (internalAt bugFinal bugFinal.rootPageId).keyAt 1 = 50
    ∧ (subtreeKeys bugFinal 10
        ((internalAt bugFinal bugFinal.rootPageId).valAt 1)).min? = some 45 := by
  refine ⟨rfl, rfl, rfl⟩

/-- C6 counterexample: with `M_l = M_i = 4` and inserts [10,20,30,40,25], it
is NOT the case that the two leaves hold `[10,20]` and `[25,30,40]` with root
separator 25.  (The code's leaf split keeps `⌈(M_l+1)/2⌉ = 3` entries in the
original leaf, so the leaves are `[10,20,25]` and `[30,40]`, separator 30.) -/
theorem c6_s2_scenario_false :
    ¬ ((leafAt s2Tree ((internalAt s2Tree s2Tree.rootPageId).valAt 0)).keysList = [10, 20]
       ∧ (leafAt s2Tree ((internalAt s2Tree s2Tree.rootPageId).valAt 1)).keysList = [25, 30, 40]
       ∧ (internalAt s2Tree s2Tree.rootPageId).keyAt 1 = 25) := by
  intro h
  exact absurd h.1 (by decide)

/-- C6 amended: inserting [10,20,30,40,25] into the empty tree (capacities
4/4) produces exactly three pages — leaves 0 and 1 and the internal root 2 —
with the first leaf holding `[10, 20, 25]`, the second `[30, 40]`, the root's
only separator `keys[1] = 30`, the root's children pointing at the two leaves
in order, and `GetValue(30)` finds the key. -/
theorem c6_s2_scenario_actual :
    s2Tree.nextFresh = 3
    ∧ isLeafFrame s2Tree 0 = true
    ∧ isLeafFrame s2Tree 1 = true
    ∧ isInternalFrame s2Tree 2 = true
    ∧ s2Tree.rootPageId = 2
    ∧ (internalAt s2Tree 2).size = 2
    ∧ (internalAt s2Tree 2).valAt 0 = 0
    ∧ (internalAt s2Tree 2).valAt 1 = 1
    ∧ (internalAt s2Tree 2).keyAt 1 = 30
    ∧ (leafAt s2Tree 0).keysList = [10, 20, 25]
    ∧ (leafAt s2Tree 1).keysList = [30, 40]
    ∧ (leafAt s2Tree 0).nextPageId = 1
    ∧ (leafAt s2Tree 1).nextPageId = INVALID_PAGE_ID
    ∧ getValue s2Tree 30 = some 3 := by
  refine ⟨rfl, rfl, rfl, rfl, rfl, rfl, rfl, rfl, rfl, rfl, rfl, rfl, rfl, rfl⟩

/-- C4 counterexample: a full internal parent of capacity `M_i = 3` (odd),
children `[100, 200, 300]`, keys `[_, 20, 30]`, split at insert position
`q + 1 = 2` with cascading pair `(split_key 25, split_child 999)`.  The claim
as stated — original node retains `⌈(M_i+2)/2⌉ = 3` children, the new node M
holds `(M_i+1) - 3 = 1` child, and the logical-sequence element at index 3
(child 300, key 30) becomes `M.children[0]` — is false: the code keeps
`⌊(M_i+2)/2⌋ = 2` children, M holds 2, and `M.children[0] = 999`. -/
theorem c4_claim_false_at_odd_capacity :
    ¬ ((splitInternal 3 c4ip 2 25 999).1.size = 3
       ∧ (splitInternal 3 c4ip 2 25 999).2.1.size = 1
       ∧ (splitInternal 3 c4ip 2 25 999).2.2 = 30
       ∧ (splitInternal 3 c4ip 2 25 999).2.1.valAt 0 = 300) := by
  intro h
  exact absurd h.1 (by decide)

/-- C4 amended: splitting a full internal parent of capacity `M_i ≥ 3` at
insert position `p = q + 1` gives: the original node retains
`⌊(M_i+2)/2⌋ = ⌈(M_i+1)/2⌉` children (`first`), the new node M holds
`(M_i+1) - first` children (`second`); writing `L` for the logical sequence
of (child, key) pairs with `(split_child, split_key)` inserted at `p`, the
original node holds `L[0..first)` and M holds `L[first..first+second)`
positionally (keys at slots `≥ 1` only; in particular `M.children[0] =
L[first].child`, so the inserted child becomes `M.children[0]` when
`p = first`).  The key promoted upward is `L[first].key` when `p ≠ first`;
when `p = first` the code instead promotes `L[first+1].key` — which is
simultaneously stored at `M.keys[1]` — and the inserted `split_key`
(`L[first].key`) is stored in neither node and is lost. -/
theorem c4_internal_split_characterisation (cfg : Int) (ip : InternalPage) (p ik sc : Int)
    (hfull : ip.size = ip.maxSize) (hM : 3 ≤ ip.maxSize)
    (hp0 : 0 ≤ p) (hpM : p ≤ ip.maxSize) :
    (splitInternal cfg ip p ik sc).1.size = (ip.maxSize + 2) / 2
    ∧ (splitInternal cfg ip p ik sc).2.1.size = ip.maxSize + 1 - (ip.maxSize + 2) / 2
    ∧ (∀ j, 0 ≤ j → j < (ip.maxSize + 2) / 2 →
        (splitInternal cfg ip p ik sc).1.valAt j = (logicalPairAt ip p ik sc j).1)
    ∧ (∀ j, 1 ≤ j → j < (ip.maxSize + 2) / 2 →
        (splitInternal cfg ip p ik sc).1.keyAt j = (logicalPairAt ip p ik sc j).2)
    ∧ (∀ j, 0 ≤ j → j < ip.maxSize + 1 - (ip.maxSize + 2) / 2 →
        (splitInternal cfg ip p ik sc).2.1.valAt j =
          (logicalPairAt ip p ik sc ((ip.maxSize + 2) / 2 + j)).1)
    ∧ (∀ j, 1 ≤ j → j < ip.maxSize + 1 - (ip.maxSize + 2) / 2 →
        (splitInternal cfg ip p ik sc).2.1.keyAt j =
          (logicalPairAt ip p ik sc ((ip.maxSize + 2) / 2 + j)).2)
    ∧ (splitInternal cfg ip p ik sc).2.1.valAt 0 =
        (logicalPairAt ip p ik sc ((ip.maxSize + 2) / 2)).1
    ∧ (p ≠ (ip.maxSize + 2) / 2 →
        (splitInternal cfg ip p ik sc).2.2 =
          (logicalPairAt ip p ik sc ((ip.maxSize + 2) / 2)).2)
    ∧ (p = (ip.maxSize + 2) / 2 →
        (splitInternal cfg ip p ik sc).2.2 =
            (logicalPairAt ip p ik sc ((ip.maxSize + 2) / 2 + 1)).2
          ∧ (splitInternal cfg ip p ik sc).2.1.keyAt 1 = (splitInternal cfg ip p ik sc).2.2) := by
  refine ⟨splitInternal_fst_size cfg ip p ik sc, splitInternal_snd_size cfg ip p ik sc,
    fun j _ hj => splitInternal_fst_valAt cfg ip p ik sc j hj,
    fun j _ hj => splitInternal_fst_keyAt cfg ip p ik sc j hj,
    fun j hj0 hj => splitInternal_snd_valAt cfg ip p ik sc j hj0 hj,
    fun j hj1 hj => splitInternal_snd_keyAt cfg ip p ik sc j hj1 hj, ?_, ?_, ?_⟩
  · have h := splitInternal_snd_valAt cfg ip p ik sc 0 le_rfl (by omega)
    rw [h, add_zero]
  · intro hne
    rw [splitInternal_promoted, if_neg hne]
  · intro heq
    refine ⟨by rw [splitInternal_promoted, if_pos heq], ?_⟩
    rw [splitInternal_snd_keyAt cfg ip p ik sc 1 le_rfl (by omega),
      splitInternal_promoted, if_pos heq]

/-- C4 witness: the characterisation applied to a full parent of capacity 3
at insert position 2 (`= first`, the promoted-key slip case). -/
theorem c4_witness :
    c4ip.size = c4ip.maxSize ∧ 3 ≤ c4ip.maxSize ∧ (0 : Int) ≤ 2 ∧ (2 : Int) ≤ c4ip.maxSize
    ∧ (splitInternal 3 c4ip 2 25 999).1.size = (c4ip.maxSize + 2) / 2 :=
  ⟨rfl, by decide, by decide, by decide,
    (c4_internal_split_characterisation 3 c4ip 2 25 999 rfl (by decide) (by decide)
      (by decide)).1⟩

/-- C5: splitting a full, strictly sorted, duplicate-free leaf of capacity
`M_l ≥ 1` on inserting a fresh key `k` at the position computed by
`IndexBinarySearchLeaf`: the search returns the unique sorted position `p`
(all earlier keys `< k`, all later keys `> k`); the original leaf keeps
`⌊(M_l+2)/2⌋ = ⌈(M_l+1)/2⌉` entries and the new leaf N the remaining
`(M_l+1) - ⌈(M_l+1)/2⌉`; the concatenation of the old leaf's keys (values)
with N's keys (values) equals the sorted merge
`keys[0..p) ++ [k] ++ keys[p..M_l)`; N inherits the old leaf's
`next_page_id` and the old leaf's `next_page_id` becomes id(N); and
`N.keys[0]` — the key `insert` propagates to the parent — is the merged
sequence's element at index `first`. -/
theorem c5_leaf_split_correct (cfg : Int) (lf : LeafPage) (nid k : Int) (v : Nat)
    (hfull : lf.size = lf.maxSize) (hM : 1 ≤ lf.maxSize)
    (hsorted : ∀ i j, 0 ≤ i → i < j → j < lf.size → lf.keyAt i < lf.keyAt j)
    (hfresh : ∀ i, 0 ≤ i → i < lf.size → lf.keyAt i ≠ k) :
    0 ≤ indexBinarySearchLeaf lf k ∧ indexBinarySearchLeaf lf k ≤ lf.size
    ∧ (∀ i, 0 ≤ i → i < indexBinarySearchLeaf lf k → lf.keyAt i < k)
    ∧ (∀ i, indexBinarySearchLeaf lf k ≤ i → i < lf.size → k < lf.keyAt i)
    ∧ (splitLeaf cfg lf nid (indexBinarySearchLeaf lf k) k v).1.size = (lf.maxSize + 2) / 2
    ∧ (splitLeaf cfg lf nid (indexBinarySearchLeaf lf k) k v).2.size
        = lf.maxSize + 1 - (lf.maxSize + 2) / 2
    ∧ (splitLeaf cfg lf nid (indexBinarySearchLeaf lf k) k v).1.nextPageId = nid
    ∧ (splitLeaf cfg lf nid (indexBinarySearchLeaf lf k) k v).2.nextPageId = lf.nextPageId
    ∧ (splitLeaf cfg lf nid (indexBinarySearchLeaf lf k) k v).1.keysList
          ++ (splitLeaf cfg lf nid (indexBinarySearchLeaf lf k) k v).2.keysList
        = lf.keysList.take (indexBinarySearchLeaf lf k).toNat
            ++ k :: lf.keysList.drop (indexBinarySearchLeaf lf k).toNat
    ∧ (splitLeaf cfg lf nid (indexBinarySearchLeaf lf k) k v).1.valsList
          ++ (splitLeaf cfg lf nid (indexBinarySearchLeaf lf k) k v).2.valsList
        = lf.valsList.take (indexBinarySearchLeaf lf k).toNat
            ++ v :: lf.valsList.drop (indexBinarySearchLeaf lf k).toNat
    ∧ (splitLeaf cfg lf nid (indexBinarySearchLeaf lf k) k v).2.keyAt 0
        = insSeqKeyAt lf (indexBinarySearchLeaf lf k) k ((lf.maxSize + 2) / 2) := by
  obtain ⟨c, hc0, hcs, hc⟩ := exists_insert_position lf k (by omega) hsorted hfresh
  have hibsl : indexBinarySearchLeaf lf k = c :=
    indexBinarySearchLeaf_eq lf k c (by omega) hc hfresh hc0 hcs
  rw [hibsl]
  refine ⟨hc0, hcs, ?_, ?_, splitLeaf_fst_size cfg lf nid c k v,
    splitLeaf_snd_size cfg lf nid c k v, splitLeaf_fst_nextPageId cfg lf nid c k v,
    splitLeaf_snd_nextPageId cfg lf nid c k v,
    splitLeaf_keys_concat cfg lf nid c k v hfull hM hc0 hcs,
    splitLeaf_vals_concat cfg lf nid c k v hfull hM hc0 hcs, ?_⟩
  · intro i h0 hic
    exact (hc i h0 (by omega)).mpr hic
  · intro i hci his
    have h1 := hc i (by omega) his
    have h2 := hfresh i (by omega) his
    omega
  · have h := splitLeaf_snd_keyAt cfg lf nid c k v (by omega) 0 le_rfl (by omega)
    rw [h, add_zero]

/-- C5 witness: the split theorem applied to the full leaf `[10,20,30,40]`
(capacity 4) on inserting key 25 with value 7. -/
theorem c5_witness :
    c5lf.size = c5lf.maxSize ∧ 1 ≤ c5lf.maxSize
    ∧ (∀ i j, 0 ≤ i → i < j → j < c5lf.size → c5lf.keyAt i < c5lf.keyAt j)
    ∧ (∀ i, 0 ≤ i → i < c5lf.size → c5lf.keyAt i ≠ 25)
    ∧ 0 ≤ indexBinarySearchLeaf c5lf 25 := by
  have hsorted : ∀ i j, 0 ≤ i → i < j → j < c5lf.size → c5lf.keyAt i < c5lf.keyAt j := by
    intro i j h0 hij hj
    have hs : c5lf.size = (4 : Int) := rfl
    rw [hs] at hj
    have hj1 : (1 : Int) ≤ j := by omega
    interval_cases j <;> interval_cases i <;> decide
  have hfresh : ∀ i, 0 ≤ i → i < c5lf.size → c5lf.keyAt i ≠ 25 := by
    intro i h0 hi
    have hs : c5lf.size = (4 : Int) := rfl
    rw [hs] at hi
    interval_cases i <;> decide
  exact ⟨rfl, by decide, hsorted, hfresh,
    (c5_leaf_split_correct 4 c5lf 9 25 7 rfl (by decide) hsorted hfresh).1⟩

/-- C7: inserting into an empty tree (header root id `INVALID`) allocates a
fresh page (`nextFresh`, bumping the allocator), initialises it as a leaf of
capacity `leaf_max_size_` containing exactly the pair `(k, v)` with size 1
and no successor leaf, writes its id into the header's `root_page_id`, and
returns true. -/
theorem c7_empty_tree_insert (s : BPTState) (k : Int) (v : Nat)
    (h : s.rootPageId = INVALID_PAGE_ID) :
    (insert s k v).1 = true
    ∧ (insert s k v).2.rootPageId = s.nextFresh
    ∧ (insert s k v).2.nextFresh = s.nextFresh + 1
    ∧ isLeafFrame (insert s k v).2 s.nextFresh = true
    ∧ (leafAt (insert s k v).2 s.nextFresh).size = 1
    ∧ (leafAt (insert s k v).2 s.nextFresh).keyAt 0 = k
    ∧ (leafAt (insert s k v).2 s.nextFresh).valAt 0 = v
    ∧ (leafAt (insert s k v).2 s.nextFresh).maxSize = s.leafMaxSize
    ∧ (leafAt (insert s k v).2 s.nextFresh).nextPageId = INVALID_PAGE_ID := by
  refine ⟨?_, ?_, ?_, ?_, ?_, ?_, ?_, ?_, ?_⟩ <;>
    simp [insert, h, leafAt, isLeafFrame, updPages, LeafPage.init]

/-- C7 witness: the empty-tree insert applied to a fresh tree with
capacities 4/4, key 7, value 3. -/
theorem c7_witness :
    (BPTState.empty 4 4).rootPageId = INVALID_PAGE_ID
    ∧ (insert (BPTState.empty 4 4) 7 3).1 = true :=
  ⟨rfl, (c7_empty_tree_insert (BPTState.empty 4 4) 7 3 rfl).1⟩

/-- C9: whenever `Insert` returns false — a duplicate detected at the leaf,
or the descent's impossible-routing bail-out — the state (header root id,
every page frame, allocation counter) is exactly the state before the call:
no structural change is made. -/
theorem c9_false_implies_unchanged (s : BPTState) (k : Int) (v : Nat)
    (h : (insert s k v).1 = false) :
    (insert s k v).2 = s := by
  by_cases hroot : s.rootPageId = INVALID_PAGE_ID
  · exfalso
    simp [insert, hroot] at h
  · rcases hd : descendInsert s k (s.nextFresh.toNat + 1) s.rootPageId [] with _ | ⟨path, leafId, lf⟩
    · simp [insert, hroot, hd]
    · by_cases hdup : lf.keyAt (indexBinarySearchLeaf lf k) = k
      · simp [insert, hroot, hd, hdup]
      · exfalso
        by_cases hsz : lf.size < lf.maxSize
        · simp [insert, hroot, hd, hdup, hsz] at h
        · simp [insert, insertSplitPath, hroot, hd, hdup, hsz, apply_ite] at h

/-- C9 witness: inserting the already-present key 5 into the leaf `[3, 5]`
returns false and leaves the state untouched. -/
theorem c9_witness :
    (insert dupBase2 5 9).1 = false ∧ (insert dupBase2 5 9).2 = dupBase2 :=
  ⟨rfl, c9_false_implies_unchanged dupBase2 5 9 rfl⟩

/-- C8 counterexample: the first insert into an empty tree is a completed
insert whose cascade never ran (exactly one page — a leaf — is allocated and
no internal root R exists), yet the header's `root_page_id` changes (from
`INVALID` to the leaf's id), contradicting the claim's "in every other
completed insert the header's root_page_id is left unchanged". -/
theorem c8_claim_false_on_empty_insert :
    (insert (BPTState.empty 4 4) 5 1).1 = true
    ∧ (insert (BPTState.empty 4 4) 5 1).2.nextFresh = 1
    ∧ isLeafFrame (insert (BPTState.empty 4 4) 5 1).2 0 = true
    ∧ (insert (BPTState.empty 4 4) 5 1).2.rootPageId ≠ (BPTState.empty 4 4).rootPageId := by
  refine ⟨rfl, rfl, rfl, by decide⟩

/-- C8 amended: for every insert into a NON-empty tree, either the header's
`root_page_id` is unchanged, or the cascade consumed every ancestor with the
root split, and then a fresh internal page R (id above every previously
allocated id, allocator bumped past it) is installed as root with
`R.size = 2`, `R.children[0]` = the old root id, and `R.children[1]` a page
allocated during this insert (the current `split_child`; `R.keys[1]` is
written alongside it as the current `split_key`, see `insertSplitPath`). -/
theorem c8_root_transition (s : BPTState) (k : Int) (v : Nat)
    (hroot : s.rootPageId ≠ INVALID_PAGE_ID) :
    (insert s k v).2.rootPageId = s.rootPageId
    ∨ (s.nextFresh < (insert s k v).2.rootPageId
       ∧ isInternalFrame (insert s k v).2 ((insert s k v).2.rootPageId) = true
       ∧ (internalAt (insert s k v).2 ((insert s k v).2.rootPageId)).size = 2
       ∧ (internalAt (insert s k v).2 ((insert s k v).2.rootPageId)).maxSize
           = s.internalMaxSize
       ∧ (internalAt (insert s k v).2 ((insert s k v).2.rootPageId)).valAt 0 = s.rootPageId
       ∧ s.nextFresh ≤ (internalAt (insert s k v).2 ((insert s k v).2.rootPageId)).valAt 1
       ∧ (internalAt (insert s k v).2 ((insert s k v).2.rootPageId)).valAt 1
           < (insert s k v).2.rootPageId
       ∧ (insert s k v).2.nextFresh = (insert s k v).2.rootPageId + 1) := by
  rcases hd : descendInsert s k (s.nextFresh.toNat + 1) s.rootPageId []
    with _ | ⟨path, leafId, lf⟩
  · left
    simp [insert, hroot, hd]
  · by_cases hdup : lf.keyAt (indexBinarySearchLeaf lf k) = k
    · left
      simp [insert, hroot, hd, hdup]
    · by_cases hsz : lf.size < lf.maxSize
      · left
        simp [insert, hroot, hd, hdup, hsz]
      · have he : insert s k v = insertSplitPath s path leafId lf
            (indexBinarySearchLeaf lf k) k v := by
          simp [insert, hroot, hd, hdup, hsz]
        rw [he]
        exact insertSplitPath_root s path leafId lf (indexBinarySearchLeaf lf k) k v

/-- C8 witness: the root-transition dichotomy applied to the non-empty
single-leaf tree `[3, 5]` on inserting key 7. -/
theorem c8_witness :
    dupBase2.rootPageId ≠ INVALID_PAGE_ID
    ∧ ((insert dupBase2 7 3).2.rootPageId = dupBase2.rootPageId
       ∨ (dupBase2.nextFresh < (insert dupBase2 7 3).2.rootPageId
          ∧ isInternalFrame (insert dupBase2 7 3).2 ((insert dupBase2 7 3).2.rootPageId) = true
          ∧ (internalAt (insert dupBase2 7 3).2 ((insert dupBase2 7 3).2.rootPageId)).size = 2
          ∧ (internalAt (insert dupBase2 7 3).2 ((insert dupBase2 7 3).2.rootPageId)).maxSize
              = dupBase2.internalMaxSize
          ∧ (internalAt (insert dupBase2 7 3).2 ((insert dupBase2 7 3).2.rootPageId)).valAt 0
              = dupBase2.rootPageId
          ∧ dupBase2.nextFresh
              ≤ (internalAt (insert dupBase2 7 3).2 ((insert dupBase2 7 3).2.rootPageId)).valAt 1
          ∧ (internalAt (insert dupBase2 7 3).2 ((insert dupBase2 7 3).2.rootPageId)).valAt 1
              < (insert dupBase2 7 3).2.rootPageId
          ∧ (insert dupBase2 7 3).2.nextFresh = (insert dupBase2 7 3).2.rootPageId + 1)) :=
  ⟨by decide, c8_root_transition dupBase2 7 3 (by decide)⟩

/-- C10: `Remove` is unconditionally a no-op — it returns without touching
the header, any page, or the leaf chain, and in particular never deletes the
entry for the key: a lookup after `Remove(k)` behaves exactly as before. -/
theorem c10_remove_is_noop (s : BPTState) (k : Int) :
    remove s k = s ∧ getValue (remove s k) k = getValue s k :=
  ⟨rfl, rfl⟩

end BPT
